import Mathlib

/-!
Verification development for the ghscan repository (GitHub workflow-log IOC
scanner).  Go strings are modelled as lists of bytes (`List Nat`, each < 256);
Go maps used as deduplicating key sets are modelled as insertion-ordered lists
without duplicates; the randomized iteration order of Go maps is modelled by an
explicit permutation parameter.
-/

set_option maxRecDepth 10000

/-- A Go string / byte slice: a list of byte values. -/
abbrev GoStr := List Nat

/-- Embed an ASCII Lean string as a Go byte string. -/
def goStr (s : String) : GoStr := s.data.map Char.toNat

/-- Membership in the base64 standard alphabet `[A-Za-z0-9+/]`. -/
def isB64 (c : Nat) : Bool :=
  (65 ≤ c && c ≤ 90) || (97 ≤ c && c ≤ 122) || (48 ≤ c && c ≤ 57) || c == 43 || c == 47

/-- RE2 `\s` character class: `[\t\n\f\r ]`. -/
def isReSpace (c : Nat) : Bool :=
  c == 9 || c == 10 || c == 12 || c == 13 || c == 32

/-- RE2 `\d` character class: `[0-9]`. -/
def isDigitB (c : Nat) : Bool := 48 ≤ c && c ≤ 57

/-- ASCII whitespace as recognized by Go strings.TrimSpace (ASCII fragment of
unicode.IsSpace): tab, newline, vertical tab, form feed, carriage return, space. -/
def isGoSpace (c : Nat) : Bool :=
  c == 9 || c == 10 || c == 11 || c == 12 || c == 13 || c == 32

/-- Go strings.HasPrefix on byte strings. -/
def hasPrefixB : List Nat → List Nat → Bool
  | _, [] => true
  | [], _ :: _ => false
  | h :: hs, n :: ns => h == n && hasPrefixB hs ns

/-- Go strings.Contains on byte strings: `listContains hay needle`. -/
def listContains : List Nat → List Nat → Bool
  | [], needle => hasPrefixB [] needle
  | h :: hs, needle => hasPrefixB (h :: hs) needle || listContains hs needle

/-- Insertion of a key into a Go map modelled as an insertion-ordered
duplicate-free key list: `m[k] = struct{}{}`. -/
def insertKey (k : GoStr) (m : List GoStr) : List GoStr :=
  if k ∈ m then m else m ++ [k]

/-- Go strings.Join with separator "," (byte 44). -/
def joinComma : List GoStr → GoStr
  | [] => []
  | [x] => x
  | x :: y :: xs => x ++ 44 :: joinComma (y :: xs)

/-- Split a byte string on newline bytes; the final (possibly empty) piece is
kept, mirroring a raw split. -/
def splitOnNl : List Nat → List (List Nat)
  | [] => [[]]
  | c :: cs =>
    if c = 10 then [] :: splitOnNl cs
    else
      match splitOnNl cs with
      | [] => [[c]]
      | p :: ps => (c :: p) :: ps

/-- Drop one trailing carriage return, as bufio.ScanLines does. -/
def dropLastCR (l : List Nat) : List Nat :=
  if l.getLast? = some 13 then l.dropLast else l

/-- The sequence of lines produced by bufio.Scanner over a byte string:
split on '\n', drop the empty final token, strip one trailing '\r' per line. -/
def splitLines (s : List Nat) : List (List Nat) :=
  let pieces := splitOnNl s
  (if pieces.getLast? = some [] then pieces.dropLast else pieces).map dropLastCR

/-- Split a maximal prefix of elements satisfying `p` from the rest. -/
def splitRun (p : Nat → Bool) : List Nat → List Nat × List Nat
  | [] => ([], [])
  | c :: cs =>
    if p c then
      let r := splitRun p cs
      (c :: r.1, r.2)
    else ([], c :: cs)

/-- Consume exactly `n` decimal digits, returning the remainder. -/
def expectDigits : Nat → List Nat → Option (List Nat)
  | 0, l => some l
  | n + 1, c :: cs => if isDigitB c then expectDigits n cs else none
  | _ + 1, [] => none

/-- Consume one expected byte. -/
def expectByte (b : Nat) : List Nat → Option (List Nat)
  | c :: cs => if c = b then some cs else none
  | [] => none

/-- The effect of `timestampRegex.ReplaceAllString(line, "")` with pattern
`^\d{4}-\d{2}-\d{2}T\d{2}:\d{2}:\d{2}\.\d+Z\s+`: strip a leading ISO-8601
timestamp (plus the following whitespace run) if present, else return the
line unchanged. -/
def stripTimestamp (l : List Nat) : List Nat :=
  let parsed : Option (List Nat) := do
    let r ← expectDigits 4 l
    let r ← expectByte 45 r
    let r ← expectDigits 2 r
    let r ← expectByte 45 r
    let r ← expectDigits 2 r
    let r ← expectByte 84 r
    let r ← expectDigits 2 r
    let r ← expectByte 58 r
    let r ← expectDigits 2 r
    let r ← expectByte 58 r
    let r ← expectDigits 2 r
    let r ← expectByte 46 r
    let ds := splitRun isDigitB r
    if ds.1 = [] then none
    else
      let r ← expectByte 90 ds.2
      let ws := splitRun isReSpace r
      if ws.1 = [] then none else some ws.2
  parsed.getD l

/-- Go strings.TrimSpace(line) == "" for ASCII content. -/
def trimmedEmpty (l : List Nat) : Bool := l.all isGoSpace

/-- Value of a byte in the standard base64 alphabet, if any ('=' excluded). -/
def b64Val (c : Nat) : Option Nat :=
  if 65 ≤ c ∧ c ≤ 90 then some (c - 65)
  else if 97 ≤ c ∧ c ≤ 122 then some (c - 97 + 26)
  else if 48 ≤ c ∧ c ≤ 57 then some (c - 48 + 52)
  else if c = 43 then some 62
  else if c = 47 then some 63
  else none

/-- Decode base64 four-byte quanta as Go encoding/base64 StdEncoding does:
padding '=' only at the end of the final quantum, non-canonical trailing
bits accepted (Go's default non-strict mode), length must be a multiple of 4. -/
def b64DecodeQuanta : List Nat → Option (List Nat)
  | [] => some []
  | c1 :: c2 :: c3 :: c4 :: rest =>
    match b64Val c1, b64Val c2 with
    | some v1, some v2 =>
      if c3 = 61 then
        if c4 = 61 ∧ rest = [] then some [v1 * 4 + v2 / 16] else none
      else
        match b64Val c3 with
        | some v3 =>
          if c4 = 61 then
            if rest = [] then some [v1 * 4 + v2 / 16, (v2 % 16) * 16 + v3 / 4] else none
          else
            match b64Val c4 with
            | some v4 =>
              (b64DecodeQuanta rest).map
                (fun tl => (v1 * 4 + v2 / 16) :: ((v2 % 16) * 16 + v3 / 4) :: ((v3 % 4) * 64 + v4) :: tl)
            | none => none
        | none => none
    | _, _ => none
  | _ => none

/-- Go base64.StdEncoding.DecodeString: newline bytes are skipped anywhere,
then the input is decoded in quanta of four. -/
def base64DecodeGo (s : GoStr) : Option GoStr :=
  b64DecodeQuanta (s.filter (fun c => c ≠ 10 ∧ c ≠ 13))

/-- Go unicode/utf8 Valid over a byte string (rejects surrogates, overlong
encodings and code points above U+10FFFF, exactly as Go's accept ranges do). -/
def utf8Valid : List Nat → Bool
  | [] => true
  | c :: rest =>
    if c < 128 then utf8Valid rest
    else if 194 ≤ c ∧ c ≤ 223 then
      match rest with
      | c2 :: r => if 128 ≤ c2 ∧ c2 ≤ 191 then utf8Valid r else false
      | [] => false
    else if 224 ≤ c ∧ c ≤ 239 then
      match rest with
      | c2 :: c3 :: r =>
        let lo2 : Nat := if c = 224 then 160 else 128
        let hi2 : Nat := if c = 237 then 159 else 191
        if lo2 ≤ c2 ∧ c2 ≤ hi2 ∧ 128 ≤ c3 ∧ c3 ≤ 191 then utf8Valid r
        else false
      | _ => false
    else if 240 ≤ c ∧ c ≤ 244 then
      match rest with
      | c2 :: c3 :: c4 :: r =>
        let lo2 : Nat := if c = 240 then 144 else 128
        let hi2 : Nat := if c = 244 then 143 else 191
        if lo2 ≤ c2 ∧ c2 ≤ hi2 ∧ 128 ≤ c3 ∧ c3 ≤ 191 ∧ 128 ≤ c4 ∧ c4 ≤ 191 then utf8Valid r
        else false
      | _ => false
    else false

/-- State of the left-to-right scan implementing Go
`regexp.FindAllStringSubmatch` for the IOC pattern
`(?:^|\s+)([A-Za-z0-9+/]{40,}={0,3})`: either scanning normally (recording
whether the previous position allows a match start), inside a candidate
alphabet run (accumulated in reverse), or consuming up to `left` more padding
bytes after a completed run. -/
inductive ScanSt : Type
  | norm (prevOk : Bool)
  | run (acc : List Nat)
  | pad (r : List Nat) (p : List Nat) (left : Nat)
deriving DecidableEq

/-- One-byte-per-step scan emitting, in order, every capture-group match of
`(?:^|\s+)([A-Za-z0-9+/]{40,}={0,3})`: a maximal base64-alphabet run of length
at least 40 that starts at the beginning of the line or right after a
whitespace byte, together with up to three trailing '=' bytes. -/
def scanLoop : ScanSt → List Nat → List (List Nat)
  | .norm _, [] => []
  | .norm prevOk, c :: cs =>
    if prevOk ∧ isB64 c then scanLoop (.run [c]) cs
    else scanLoop (.norm (isReSpace c)) cs
  | .run acc, [] => if 40 ≤ acc.length then [acc.reverse] else []
  | .run acc, c :: cs =>
    if isB64 c then scanLoop (.run (c :: acc)) cs
    else if 40 ≤ acc.length then
      if c = 61 then scanLoop (.pad acc.reverse [61] 2) cs
      else acc.reverse :: scanLoop (.norm (isReSpace c)) cs
    else scanLoop (.norm (isReSpace c)) cs
  | .pad r p _, [] => [r ++ p.reverse]
  | .pad r p left, c :: cs =>
    if c = 61 ∧ 0 < left then scanLoop (.pad r (c :: p) (left - 1)) cs
    else (r ++ p.reverse) :: scanLoop (.norm (isReSpace c)) cs

/-- All candidate tokens the IOC pattern pass extracts from one line. -/
def findCandidates (line : List Nat) : List (List Nat) :=
  scanLoop (.norm true) line

/-- tryBase64Decode as in the IOC-based detector revision: the candidate is
decodable exactly when base64 decoding succeeds and the decoded bytes are
valid UTF-8; the decoded text itself is returned. -/
def tryBase64Decode1 (s : GoStr) : Option GoStr :=
  match base64DecodeGo s with
  | none => none
  | some d => if utf8Valid d then some d else none

/-- handleDecoded of the IOC-based detector: retry the same decode on the
already-decoded value; on success record the doubly-decoded text, otherwise
record the singly-decoded text. -/
def handleDecodedIOC (d : GoStr) (dm : List GoStr) : List GoStr :=
  match tryBase64Decode1 d with
  | some d2 => insertKey d2 dm
  | none => insertKey d dm

/-- Body of the per-match loop in processMatch of the IOC-based detector:
an undecodable candidate contributes nothing; a decodable one is added to
the encoded set and its payload to the decoded set. -/
def processCandidate (t : GoStr) (em dm : List GoStr) : List GoStr × List GoStr :=
  match tryBase64Decode1 t with
  | none => (em, dm)
  | some d => (insertKey t em, handleDecodedIOC d dm)

/-- One line of the IOC-based ParseLogs: the content pass (findMatch) records
the timestamp-stripped line for each matching content substring, then the
pattern pass (processMatch) feeds every extracted candidate to
processCandidate. -/
def iocStep (contents : List GoStr) (acc : List GoStr × List GoStr × List GoStr)
    (ln : GoStr) : List GoStr × List GoStr × List GoStr :=
  let lm := contents.foldl
    (fun lm c => if listContains ln c then insertKey (stripTimestamp ln) lm else lm) acc.1
  let ed := (findCandidates ln).foldl
    (fun ed t => processCandidate t ed.1 ed.2) (acc.2.1, acc.2.2)
  (lm, ed.1, ed.2)

/-- The three deduplication key sets (lineMap, encodedMap, decodedMap) built by
the IOC-based ParseLogs over all lines, in insertion order. -/
def parseLogsIOCCore (contents : List GoStr) (logData : GoStr) :
    List GoStr × List GoStr × List GoStr :=
  (splitLines logData).foldl (iocStep contents) ([], [], [])

/-- A Finding of the IOC-based detector revision. -/
structure FindingIOC : Type where
  encoded : GoStr
  decoded : GoStr
  lineData : GoStr
deriving DecidableEq

/-- The IOC-based ParseLogs.  `ord` models the randomized iteration order of
Go maps applied by slices.Collect(maps.Keys(...)); a run of the Go program
corresponds to some `ord` that permutes each key list.  Mirrors the source:
one Finding is always built, and foundIssues is computed as the length of the
just-built one-element findings slice being positive. -/
def parseLogsIOC (ord : List GoStr → List GoStr) (contents : List GoStr)
    (logData : GoStr) : List FindingIOC × Bool :=
  let core := parseLogsIOCCore contents logData
  let finding : FindingIOC :=
    ⟨joinComma (ord core.2.1), joinComma (ord core.2.2), joinComma (ord core.1)⟩
  let findings := [finding]
  (findings, decide (0 < findings.length))

/-- tryBase64Decode of the workflow-package detector revision: decode, require
UTF-8 validity, then require a second decode to succeed, returning the
doubly-decoded bytes. -/
def tryBase64DecodeWF (s : GoStr) : Option GoStr :=
  match base64DecodeGo s with
  | none => none
  | some d => if utf8Valid d then base64DecodeGo d else none

/-- A Base64Finding of the workflow-package detector. -/
structure B64Finding : Type where
  encoded : GoStr
  decoded : GoStr
deriving DecidableEq

/-- First index value `seen[l]` with `seen[l+1] = seen[l]+1`; the source loop
reads `seen[l+1]` unconditionally but is only entered when a consecutive pair
exists, so the partial access is modelled safely by an Option. -/
def firstConsec : List Nat → Option Nat
  | a :: b :: rest => if b = a + 1 then some a else firstConsec (b :: rest)
  | _ => none

/-- The formatted emptyLinesInfo string, with both format arguments as passed
in the source (`emptyLinesSeen[l]` twice). -/
def fmtEmptyLinesInfo (a b : Nat) : GoStr :=
  goStr ("Log lines " ++ toString a ++ "-" ++ toString b ++ " after changed-files")

/-- Loop state of the workflow-package ParseLogs. -/
structure WFState : Type where
  findings : List B64Finding
  header : Bool
  seen : List Nat
  emptyFound : Bool
  info : GoStr
deriving DecidableEq

/-- One iteration of the workflow-package ParseLogs scan loop over a line. -/
def wfStep (checkEmptyLines : Bool) (st : WFState) (ln : GoStr) (lineNum : Nat) : WFState :=
  let contentLine := stripTimestamp ln
  let isLineEmpty := trimmedEmpty contentLine
  let fs := st.findings ++ (findCandidates ln).filterMap
    (fun m => (tryBase64DecodeWF m).map (fun d => B64Finding.mk m d))
  let st := { st with findings := fs }
  if checkEmptyLines then
    if ¬st.header ∧ listContains contentLine (goStr "##[group]changed-files") then
      { st with header := true, seen := [] }
    else if st.header then
      if isLineEmpty then
        let seen := st.seen ++ [lineNum]
        if 2 ≤ seen.length ∧
            seen.getLast? = (seen.dropLast.getLast?).map (· + 1) then
          { st with seen := seen, emptyFound := true,
                    info := match firstConsec seen with
                            | some v => fmtEmptyLinesInfo v v
                            | none => st.info }
        else { st with seen := seen }
      else if listContains contentLine (goStr "Using local .git directory") ∨
          ¬listContains contentLine (goStr "##[group]changed-files") then
        { st with header := false }
      else st
    else st
  else st

/-- Fold of wfStep over numbered lines. -/
def wfLoop (checkEmptyLines : Bool) : WFState → Nat → List GoStr → WFState
  | st, _, [] => st
  | st, n, ln :: rest =>
    wfLoop checkEmptyLines (wfStep checkEmptyLines st ln (n + 1)) (n + 1) rest

/-- Tail of slices.Compact: drop elements equal to the previous kept one. -/
def compactAux (prev : B64Finding) : List B64Finding → List B64Finding
  | [] => []
  | b :: rest => if b = prev then compactAux prev rest else b :: compactAux b rest

/-- Go slices.Compact: collapse runs of consecutive equal elements. -/
def compactL : List B64Finding → List B64Finding
  | [] => []
  | a :: rest => a :: compactAux a rest

/-- The workflow-package ParseLogs: scans lines for decodable base64
candidates and (when enabled) for consecutive empty lines after the
changed-files group header; pattern findings clear the empty-lines info. -/
def parseLogsWF (checkEmptyLines : Bool) (logData : GoStr) :
    List B64Finding × GoStr × Bool :=
  let st := wfLoop checkEmptyLines ⟨[], false, [], false, []⟩ 0 (splitLines logData)
  let foundIssues := st.findings ≠ [] ∨ st.emptyFound
  let info := if st.findings ≠ [] then [] else st.info
  (compactL st.findings, info, decide foundIssues)

/-- Outcome of the retry wrapper. -/
inductive RetryOutcome : Type
  | ok
  | ctxCancelled
  | timedOut (cause : String)
  | maxRetriesExceeded (cause : String)
deriving DecidableEq

/-- Error message carried by a retry outcome, as formatted by the source. -/
def retryErrMsg : RetryOutcome → String
  | .ok => ""
  | .ctxCancelled => "context error"
  | .timedOut cause => "operation timed out: " ++ cause
  | .maxRetriesExceeded cause => "max retries exceeded: " ++ cause

/-- Rate-limit classification of an error message in WithRetry. -/
def isRateLimitMsg (msg : String) : Bool :=
  listContains (goStr msg) (goStr "rate limit") || listContains (goStr msg) (goStr "403")

/-- The WithRetry loop of pkg/request/retry.go: `cb k` is whether ctx.Err()
is non-nil at the start of the k-th wrappedOperation call, `cd a` whether
ctx.Err() is DeadlineExceeded after failed attempt `a`, `op a` the result of
attempt `a` (none = success).  Returns the outcome and the number of times
the operation was invoked.  backoff.Retry keeps calling until a permanent
error or success; rate-limit errors only change the wait, not the control
flow. -/
def retryGo (cb : Nat → Bool) (cd : Nat → Bool) (op : Nat → Option String)
    (maxRetries : Nat) (attempt : Nat) : RetryOutcome × Nat :=
  if cb (attempt + 1) then (.ctxCancelled, attempt)
  else
    match op (attempt + 1) with
    | none => (.ok, attempt + 1)
    | some msg =>
      if h : maxRetries < attempt + 1 then (.maxRetriesExceeded msg, attempt + 1)
      else if cd (attempt + 1) then (.timedOut msg, attempt + 1)
      else if isRateLimitMsg msg then retryGo cb cd op maxRetries (attempt + 1)
      else retryGo cb cd op maxRetries (attempt + 1)
termination_by maxRetries + 1 - attempt
decreasing_by all_goals omega

/-- WithRetry: run the retry loop starting with zero attempts made. -/
def withRetryModel (cb : Nat → Bool) (cd : Nat → Bool) (op : Nat → Option String)
    (maxRetries : Nat) : RetryOutcome × Nat :=
  retryGo cb cd op maxRetries 0

/-- A persisted Result record (tj-scan Result structure; the URL fields are
built by string concatenation, url.PathEscape is not modelled as the claims
do not depend on escaping). -/
structure ScanResultR : Type where
  repository : String
  workflowFileName : String
  workflowURL : String
  workflowRunURL : String
  base64Data : GoStr
  decodedData : GoStr
  emptyLines : GoStr
deriving DecidableEq

/-- Go path/filepath.Base (unix): empty path gives ".", all-separator path
gives "/", otherwise the last element after trimming trailing slashes. -/
def filepathBase (p : String) : String :=
  if p.data = [] then "."
  else
    let trimmed := (p.data.reverse.dropWhile (fun c => c = '/')).reverse
    if trimmed = [] then "/"
    else String.mk ((trimmed.reverse.takeWhile (fun c => c ≠ '/')).reverse)

/-- The resumability skip-key: repository key "owner/repo" joined to the
workflow file name with '|'. -/
def mkCacheKey (owner repoName wfFileName : String) : String :=
  owner ++ "/" ++ repoName ++ "|" ++ wfFileName

/-- scanRuns: every run's parse output that is found and non-empty yields one
Result per Base64Finding, tagged with the repository and workflow file. -/
def scanRunsM (owner repoName wfFileName wfPath : String) (runs : List Nat)
    (parse : Nat → List B64Finding × GoStr × Bool) : List ScanResultR :=
  runs.flatMap (fun runID =>
    let pr := parse runID
    if pr.2.2 = true ∧ pr.1 ≠ [] then
      pr.1.map (fun f =>
        { repository := owner ++ "/" ++ repoName
          workflowFileName := wfFileName
          workflowURL := "https://github.com/" ++ owner ++ "/" ++ repoName ++
            "/actions/workflows/" ++ wfPath
          workflowRunURL := "https://github.com/" ++ owner ++ "/" ++ repoName ++
            "/actions/runs/" ++ toString runID
          base64Data := f.encoded
          decodedData := f.decoded
          emptyLines := pr.2.1 })
    else [])

/-- One workflow path of scanWorkflows: a path whose skip-key is already
cached is skipped entirely; otherwise its runs are scanned and the produced
Results appended, and the path recorded as scanned. -/
def scanWfStep (cachedKeys : List String) (owner repoName : String)
    (runsOf : String → List Nat)
    (parse : String → Nat → List B64Finding × GoStr × Bool)
    (acc : List ScanResultR × List String) (wfPath : String) :
    List ScanResultR × List String :=
  let wfFileName := filepathBase wfPath
  if mkCacheKey owner repoName wfFileName ∈ cachedKeys then acc
  else
    (acc.1 ++ scanRunsM owner repoName wfFileName wfPath (runsOf wfPath) (parse wfPath),
     acc.2 ++ [wfPath])

/-- scanWorkflows over all workflow paths of a repository.  Returns the
appended Results and the list of workflow paths actually scanned. -/
def scanWorkflowsM (cachedKeys : List String) (owner repoName : String)
    (wfPaths : List String) (runsOf : String → List Nat)
    (parse : String → Nat → List B64Finding × GoStr × Bool) :
    List ScanResultR × List String :=
  wfPaths.foldl (scanWfStep cachedKeys owner repoName runsOf parse) ([], [])

/-- A file system snapshot: path to file contents. -/
abbrev FileSys := String → Option GoStr

/-- Point update of a file system. -/
def fsUpdate (fs : FileSys) (p : String) (v : Option GoStr) : FileSys :=
  fun q => if q = p then v else fs q

/-- The temporary file used by WriteCache. -/
def tempName (path : String) : String := path ++ ".temp"

/-- Interruption points of the WriteCache flush: before the temp-file write,
during it (with `k` bytes written), after it, and after the atomic rename. -/
inductive FlushPoint : Type
  | beforeWrite
  | duringWrite (k : Nat)
  | afterWrite
  | afterRename

/-- Observable file system at each interruption point of WriteCache: the
serialized data is written in full to `path ++ ".temp"` and only then renamed
onto `path`; a partial write only ever affects the temp file. -/
def flushObservable (fs0 : FileSys) (path : String) (data : GoStr) : FlushPoint → FileSys
  | .beforeWrite => fs0
  | .duringWrite k => fsUpdate fs0 (tempName path) (some (data.take k))
  | .afterWrite => fsUpdate fs0 (tempName path) (some data)
  | .afterRename => fsUpdate (fsUpdate fs0 (tempName path) none) path (some data)

/-- One received batch in Scanner.collect: append it, and flush when the new
total length is an exact multiple of flushSize (recorded as the total at
which the intermediate flush happened). -/
def collectStep (flushSize : Nat) (acc : List ScanResultR × List Nat)
    (batch : List ScanResultR) : List ScanResultR × List Nat :=
  let rs := acc.1 ++ batch
  if rs.length % flushSize = 0 then (rs, acc.2 ++ [rs.length]) else (rs, acc.2)

/-- The collector loop of Scanner.collect over all received batches.  Returns
the final results and the totals at which an intermediate flush happened. -/
def collectRun (flushSize : Nat) (init : List ScanResultR)
    (batches : List (List ScanResultR)) : List ScanResultR × List Nat :=
  batches.foldl (collectStep flushSize) (init, [])

/-- Whether the unconditional final flush of Scanner.collect runs. -/
def collectFinal (results : List ScanResultR) : Bool := decide (results.length ≠ 0)

/-- Running totals after each appended batch. -/
def runningTotals (n : Nat) : List (List ScanResultR) → List Nat
  | [] => []
  | b :: bs => (n + b.length) :: runningTotals (n + b.length) bs

/-- A dummy Result used for concrete evaluations. -/
def dummyResult : ScanResultR := ⟨"", "", "", "", [], [], []⟩

/-- A workflow run as far as time-window listing is concerned. -/
structure RunItem : Type where
  created : Nat
deriving DecidableEq

/-- The 48-hour chunk duration, in seconds. -/
def chunkDuration : Nat := 172800

/-- The chunk sequence of ListWorkflowRuns: starting at `s`, windows
`(s, min (s+dur) e)` stepping by `dur` while the start is before `e`;
`n` is a fuel bound on the number of chunks. -/
def chunkFrom (dur : Nat) : Nat → Nat → Nat → List (Nat × Nat)
  | 0, _, _ => []
  | n + 1, s, e => if s < e then (s, min (s + dur) e) :: chunkFrom dur n (s + dur) e else []

/-- The time chunks built by ListWorkflowRuns for window `[s, e)`. -/
def chunkList (s e : Nat) : List (Nat × Nat) :=
  chunkFrom chunkDuration ((e - s + (chunkDuration - 1)) / chunkDuration) s e

/-- ListWorkflowRuns: query each chunk and keep the returned runs whose
creation time is strictly after the chunk start and strictly before the
chunk end (`createdAt.After(chunkStart) && createdAt.Before(chunkEnd)`). -/
def listWorkflowRunsM (start endT : Nat) (api : Nat → Nat → List RunItem) : List RunItem :=
  (chunkList start endT).flatMap (fun ch =>
    (api ch.1 ch.2).filter (fun r => ch.1 < r.created ∧ r.created < ch.2))

/-- Well-formedness of a scan state: a run accumulator holds only alphabet
bytes; a padding state holds an emitted-to-be run of length at least 40 plus
collected '=' bytes with the padding budget accounting to three. -/
def stWF : ScanSt → Prop
  | .norm _ => True
  | .run acc => acc.all isB64 = true
  | .pad r p left =>
    r.all isB64 = true ∧ 40 ≤ r.length ∧ p.all (fun c => c == 61) = true ∧ p.length + left = 3

/-- A prefix of the line after which the pattern may start a match: the empty
prefix (line start) or any prefix ending in a whitespace byte. -/
def anchoredPrefix (u : List Nat) : Prop :=
  u = [] ∨ ∃ u' w, u = u' ++ [w] ∧ isReSpace w = true

/-- Positional invariant of the scan relating a state to the consumed prefix
`done` of the line: a run (or run-plus-padding) in progress was consumed last
and started right after an anchored prefix; in a normal state a match-capable
flag certifies the consumed prefix is anchored. -/
def stPosInv : ScanSt → List Nat → Prop
  | .norm prevOk, done => prevOk = true → anchoredPrefix done
  | .run acc, done => ∃ u, done = u ++ acc.reverse ∧ anchoredPrefix u
  | .pad r p _, done => ∃ u, done = u ++ (r ++ p.reverse) ∧ anchoredPrefix u

/-- A path never equals its temp-file name (the lengths differ). -/
theorem path_ne_tempName (path : String) : path ≠ tempName path := by
  intro h
  have h2 := congrArg String.length h
  rw [tempName, String.length_append] at h2
  have h5 : (".temp" : String).length = 5 := rfl
  omega

/-- With a never-expiring context and an operation failing at every attempt,
the retry loop started after `attempt` calls ends in the permanent
max-retries error carrying the last attempt's cause, after exactly
`maxRetries + 1` total calls. -/
theorem retryGo_fail_all (msgs : Nat → String) (maxRetries : Nat) :
    ∀ d attempt, maxRetries + 1 - attempt = d → attempt ≤ maxRetries →
      retryGo (fun _ => false) (fun _ => false) (fun a => some (msgs a)) maxRetries attempt
        = (.maxRetriesExceeded (msgs (maxRetries + 1)), maxRetries + 1) := by
  intro d
  induction d with
  | zero => intro attempt h hle; omega
  | succ d ih =>
    intro attempt h hle
    rw [retryGo]
    simp only [Bool.false_eq_true, if_false]
    by_cases hlt : maxRetries < attempt + 1
    · have : attempt = maxRetries := by omega
      subst this
      simp [hlt]
    · simp only [hlt, dif_neg, if_false, ite_self]
      exact ih (attempt + 1) (by omega) (by omega)

/-- Every Result produced by scanRuns is tagged with the given repository and
workflow file name. -/
theorem scanRunsM_fields (owner repoName wfFileName wfPath : String)
    (runs : List Nat) (parse : Nat → List B64Finding × GoStr × Bool) :
    ∀ r ∈ scanRunsM owner repoName wfFileName wfPath runs parse,
      r.repository = owner ++ "/" ++ repoName ∧ r.workflowFileName = wfFileName := by
  intro r hr
  rw [scanRunsM] at hr
  simp only [List.mem_flatMap] at hr
  obtain ⟨runID, _, hr⟩ := hr
  split at hr
  · simp only [List.mem_map] at hr
    obtain ⟨f, _, rfl⟩ := hr
    exact ⟨rfl, rfl⟩
  · simp at hr

/-- Invariant of the scanWorkflows fold: once the skip-key of `wfFile` is in
the cache, no scanned path has base name `wfFile` and no appended Result is
tagged with the pair (owner/repoName, wfFile). -/
theorem scanWfFold_inv (cachedKeys : List String) (owner repoName wfFile : String)
    (runsOf : String → List Nat)
    (parse : String → Nat → List B64Finding × GoStr × Bool)
    (h : mkCacheKey owner repoName wfFile ∈ cachedKeys) :
    ∀ (wfPaths : List String) (acc : List ScanResultR × List String),
      (∀ p ∈ acc.2, filepathBase p ≠ wfFile) →
      (∀ r ∈ acc.1, ¬(r.repository = owner ++ "/" ++ repoName ∧ r.workflowFileName = wfFile)) →
      (∀ p ∈ (wfPaths.foldl (scanWfStep cachedKeys owner repoName runsOf parse) acc).2,
        filepathBase p ≠ wfFile) ∧
      (∀ r ∈ (wfPaths.foldl (scanWfStep cachedKeys owner repoName runsOf parse) acc).1,
        ¬(r.repository = owner ++ "/" ++ repoName ∧ r.workflowFileName = wfFile)) := by
  intro wfPaths
  induction wfPaths with
  | nil => intro acc h2 h1; exact ⟨h2, h1⟩
  | cons wfPath rest ih =>
    intro acc h2 h1
    rw [List.foldl_cons]
    apply ih
    · intro p hp
      rw [scanWfStep] at hp
      split at hp
      · exact h2 p hp
      · rename_i hnotin
        simp only [List.mem_append, List.mem_singleton] at hp
        rcases hp with hp | rfl
        · exact h2 p hp
        · intro hbase
          exact hnotin (hbase ▸ h)
    · intro r hr
      rw [scanWfStep] at hr
      split at hr
      · exact h1 r hr
      · rename_i hnotin
        simp only [List.mem_append] at hr
        rcases hr with hr | hr
        · exact h1 r hr
        · intro hpair
          have hf := scanRunsM_fields owner repoName (filepathBase wfPath) wfPath
            (runsOf wfPath) (parse wfPath) r hr
          have hbase : filepathBase wfPath = wfFile := by
            rw [← hf.2, hpair.2]
          exact hnotin (hbase ▸ h)

/-- The flush totals of the collector fold are exactly the running totals
that land on a multiple of flushSize. -/
theorem collectRun_aux (flushSize : Nat) :
    ∀ (batches : List (List ScanResultR)) (acc : List ScanResultR) (fl : List Nat),
      (batches.foldl (collectStep flushSize) (acc, fl)).2
        = fl ++ (runningTotals acc.length batches).filter (fun t => decide (t % flushSize = 0)) := by
  intro batches
  induction batches with
  | nil => intro acc fl; simp [runningTotals]
  | cons b bs ih =>
    intro acc fl
    rw [List.foldl_cons]
    simp only [runningTotals]
    by_cases hmod : (acc.length + b.length) % flushSize = 0
    · have hstep : collectStep flushSize (acc, fl) b = (acc ++ b, fl ++ [acc.length + b.length]) := by
        simp [collectStep, List.length_append, hmod]
      rw [hstep, ih]
      rw [List.filter_cons_of_pos (by simpa using hmod)]
      simp [List.length_append, List.append_assoc]
    · have hstep : collectStep flushSize (acc, fl) b = (acc ++ b, fl) := by
        simp [collectStep, List.length_append, hmod]
      rw [hstep, ih]
      rw [List.filter_cons_of_neg (by simpa using hmod)]
      simp [List.length_append]

/-- Every chunk produced by chunkFrom starts at `s` plus a multiple of the
duration, is strictly below `e`, and ends at `min (start + dur) e`. -/
theorem chunkFrom_mem (dur : Nat) :
    ∀ (n s e : Nat) (ab : Nat × Nat), ab ∈ chunkFrom dur n s e →
      ∃ j, ab.1 = s + dur * j ∧ ab.2 = min (ab.1 + dur) e ∧ ab.1 < e := by
  intro n
  induction n with
  | zero => intro s e ab hmem; simp [chunkFrom] at hmem
  | succ n ih =>
    intro s e ab hmem
    rw [chunkFrom] at hmem
    by_cases h : s < e
    · rw [if_pos h] at hmem
      rcases List.mem_cons.mp hmem with rfl | hmem
      · exact ⟨0, by simp, by simp, h⟩
      · obtain ⟨j, h1, h2, h3⟩ := ih (s + dur) e ab hmem
        refine ⟨j + 1, ?_, h2, h3⟩
        rw [h1]; ring
    · rw [if_neg h] at hmem
      simp at hmem

/-- Claim C1: a candidate token of the IOC pattern pass is decodable only if
base64 decoding succeeds and yields valid UTF-8 (otherwise it produces no
finding), and the recorded decoded payload is the doubly-decoded text when
the decoded value itself base64-decodes to valid UTF-8, otherwise the
singly-decoded text. -/
theorem c1_decode_validity (t : GoStr) (em dm : List GoStr) :
    (base64DecodeGo t = none → processCandidate t em dm = (em, dm))
  ∧ (∀ d, base64DecodeGo t = some d → utf8Valid d = false →
      processCandidate t em dm = (em, dm))
  ∧ (∀ d, base64DecodeGo t = some d → utf8Valid d = true →
      processCandidate t em dm =
        (insertKey t em,
         insertKey (match base64DecodeGo d with
                    | some d2 => if utf8Valid d2 then d2 else d
                    | none => d) dm)) := by
  refine ⟨?_, ?_, ?_⟩
  · intro h
    simp [processCandidate, tryBase64Decode1, h]
  · intro d h hv
    simp [processCandidate, tryBase64Decode1, h, hv]
  · intro d h hv
    simp only [processCandidate, tryBase64Decode1, h, hv, if_true]
    cases h2 : base64DecodeGo d with
    | none => simp [handleDecodedIOC, tryBase64Decode1, h2]
    | some d2 =>
      by_cases hv2 : utf8Valid d2 = true
      · simp [handleDecodedIOC, tryBase64Decode1, h2, hv2]
      · simp only [Bool.not_eq_true] at hv2
        simp [handleDecodedIOC, tryBase64Decode1, h2, hv2]

/-- Witness for C1 at the double-encoded token "YUdrPQ==", which decodes to
"aGk=" and then to "hi". -/
theorem c1_decode_validity_witness :
    base64DecodeGo (goStr "YUdrPQ==") = some (goStr "aGk=")
  ∧ utf8Valid (goStr "aGk=") = true
  ∧ processCandidate (goStr "YUdrPQ==") [] [] = ([goStr "YUdrPQ=="], [goStr "hi"]) := by
  refine ⟨by decide, by decide, ?_⟩
  have h := (c1_decode_validity (goStr "YUdrPQ==") [] []).2.2 (goStr "aGk=")
    (by decide) (by decide)
  rw [h]
  decide

/-- Claim C2: an operation failing on every invocation under a never-expiring
context is invoked exactly maxRetries + 1 times, after which WithRetry returns
a permanent error whose message is "max retries exceeded" wrapping the last
cause; under a context already expired before the first attempt, WithRetry
returns an error having invoked the operation zero times. -/
theorem c2_retry_bound (maxRetries : Nat) (msgs : Nat → String)
    (cd : Nat → Bool) (op : Nat → Option String) :
    (withRetryModel (fun _ => false) (fun _ => false) (fun a => some (msgs a)) maxRetries
       = (.maxRetriesExceeded (msgs (maxRetries + 1)), maxRetries + 1)
     ∧ retryErrMsg (RetryOutcome.maxRetriesExceeded (msgs (maxRetries + 1)))
       = "max retries exceeded: " ++ msgs (maxRetries + 1))
  ∧ withRetryModel (fun _ => true) cd op maxRetries = (.ctxCancelled, 0) := by
  refine ⟨⟨?_, rfl⟩, ?_⟩
  · exact retryGo_fail_all msgs maxRetries (maxRetries + 1) 0 rfl (Nat.zero_le _)
  · rw [withRetryModel, retryGo]
    simp

/-- Claim C4: at every interruption point of the WriteCache flush before the
rename, the previously stored contents remain observable at `path` (a partial
write only touches the temp file); only the completed rename makes the full
new data observable at `path`. -/
theorem c4_atomic_flush (fs0 : FileSys) (path : String) (data : GoStr) :
    flushObservable fs0 path data .beforeWrite path = fs0 path
  ∧ (∀ k, flushObservable fs0 path data (.duringWrite k) path = fs0 path)
  ∧ flushObservable fs0 path data .afterWrite path = fs0 path
  ∧ flushObservable fs0 path data .afterRename path = some data := by
  have hne : path ≠ tempName path := path_ne_tempName path
  refine ⟨rfl, fun k => ?_, ?_, ?_⟩ <;> simp [flushObservable, fsUpdate, hne]

/-- Claim C6 (code bug): on the given end-to-end log text the detector does
report a positive finding from the blank-line heuristic, but the descriptive
text reads "Log lines 2-2 after changed-files" — the source passes
emptyLinesSeen[l] for both format arguments — instead of identifying the
second and third lines. -/
theorem c6_empty_lines_scenario :
    parseLogsWF true (goStr "2025-03-15T00:00:00.000000Z ##[group]changed-files\n2025-03-15T00:00:00.000000Z \n2025-03-15T00:00:00.000000Z \n")
      = ([], goStr "Log lines 2-2 after changed-files", true) := by decide

/-- Claim C8 (code bug): on a log where no line matches the content substring,
no candidate decodes and nothing else fires, the IOC-based ParseLogs still
returns foundIssues = true and surfaces one all-empty Finding, because the
source computes the flag from the just-built one-element findings slice. -/
theorem c8_no_match_still_found :
    parseLogsIOC id [goStr "SHA:0e58ed8671d6b60d0890c21b07f8835ace038e67"] (goStr "hello\nworld\n")
      = ([⟨[], [], []⟩], true) := by decide

/-- Counterexample for C9: with flushSize 10, batches of 3 then 8 Results
make the running total jump from 3 to 11, crossing the multiple 10, yet no
intermediate flush is triggered. -/
theorem c9_counterexample :
    runningTotals 0 [List.replicate 3 dummyResult, List.replicate 8 dummyResult] = [3, 11]
  ∧ 3 < 10 ∧ 10 < 11
  ∧ (collectRun 10 [] [List.replicate 3 dummyResult, List.replicate 8 dummyResult]).2 = [] := by
  decide

/-- Claim C9 as amended: an intermediate flush is triggered after appending a
batch exactly when the running total of collected Results lands exactly on a
multiple of flushSize; crossing a multiple without landing on it does not
flush. -/
theorem c9_amended_flush_on_exact_multiple (flushSize : Nat) (init : List ScanResultR)
    (batches : List (List ScanResultR)) :
    (collectRun flushSize init batches).2
      = (runningTotals init.length batches).filter (fun t => decide (t % flushSize = 0)) := by
  rw [collectRun]
  simpa using collectRun_aux flushSize batches init []

/-- Counterexample for C7: a run created exactly at the start instant of the
window [0, 172800) is returned by the upstream chunk query but dropped by the
strict After/Before filter of ListWorkflowRuns. -/
theorem c7_counterexample :
    (⟨0⟩ : RunItem) ∈ (([⟨0⟩] : List RunItem).filter (fun r => decide (0 ≤ r.created ∧ r.created ≤ 172800)))
  ∧ (0 : Nat) < 172800
  ∧ listWorkflowRunsM 0 172800
      (fun s e => ([⟨0⟩] : List RunItem).filter (fun r => decide (s ≤ r.created ∧ r.created ≤ e))) = [] := by
  decide

/-- Claim C7 as amended: ListWorkflowRuns returns exactly the upstream runs
created strictly inside one of its 48-hour sub-windows; consequently every
returned run lies strictly inside (start, end), and no returned run is
created exactly at start or on any sub-window boundary start + 172800·k. -/
theorem c7_amended_strict_chunk_interior (start endT : Nat)
    (api : Nat → Nat → List RunItem) (r : RunItem) :
    (r ∈ listWorkflowRunsM start endT api →
       start < r.created ∧ r.created < endT ∧
       ∀ k, r.created ≠ start + chunkDuration * k)
  ∧ (∀ ch ∈ chunkList start endT, r ∈ api ch.1 ch.2 →
       ch.1 < r.created → r.created < ch.2 → r ∈ listWorkflowRunsM start endT api) := by
  constructor
  · intro hmem
    rw [listWorkflowRunsM] at hmem
    simp only [List.mem_flatMap, List.mem_filter, decide_eq_true_eq] at hmem
    obtain ⟨ch, hch, hr, hlo, hhi⟩ := hmem
    obtain ⟨j, hj1, hj2, hj3⟩ := chunkFrom_mem chunkDuration _ start endT ch hch
    have hlow : start < r.created := by
      rw [hj1] at hlo
      omega
    have hhigh : r.created < endT := by
      rw [hj2] at hhi
      omega
    refine ⟨hlow, hhigh, fun k => ?_⟩
    intro heq
    rw [hj1] at hlo
    rw [hj2, hj1] at hhi
    by_cases hk : k ≤ j
    · have : chunkDuration * k ≤ chunkDuration * j := Nat.mul_le_mul_left _ hk
      omega
    · have hjk : j + 1 ≤ k := by omega
      have : chunkDuration * (j + 1) ≤ chunkDuration * k := Nat.mul_le_mul_left _ hjk
      have hmul : chunkDuration * (j + 1) = chunkDuration * j + chunkDuration := by ring
      omega
  · intro ch hch hapi hlo hhi
    rw [listWorkflowRunsM]
    simp only [List.mem_flatMap, List.mem_filter, decide_eq_true_eq]
    exact ⟨ch, hch, hapi, hlo, hhi⟩

/-- Witness for C7: a run created strictly inside the first chunk of the
window [0, 172801) is returned. -/
theorem c7_amended_witness :
    (⟨5⟩ : RunItem) ∈ listWorkflowRunsM 0 172801 (fun _ _ => [⟨5⟩]) := by
  exact (c7_amended_strict_chunk_interior 0 172801 (fun _ _ => [⟨5⟩]) ⟨5⟩).2
    (0, 172800) (by decide) (by decide) (by decide) (by decide)

/-- Claim C3: once the skip-key of a (repository, workflow file) pair is in
the loaded cache, a rescan scans none of that workflow file's paths (hence
none of its runs) and appends zero Results for that pair. -/
theorem c3_cached_workflow_skipped (cachedKeys : List String)
    (owner repoName wfFile : String) (wfPaths : List String)
    (runsOf : String → List Nat)
    (parse : String → Nat → List B64Finding × GoStr × Bool)
    (h : mkCacheKey owner repoName wfFile ∈ cachedKeys) :
    (∀ p ∈ (scanWorkflowsM cachedKeys owner repoName wfPaths runsOf parse).2,
      filepathBase p ≠ wfFile)
  ∧ (∀ r ∈ (scanWorkflowsM cachedKeys owner repoName wfPaths runsOf parse).1,
      ¬(r.repository = owner ++ "/" ++ repoName ∧ r.workflowFileName = wfFile)) := by
  exact scanWfFold_inv cachedKeys owner repoName wfFile runsOf parse h wfPaths ([], [])
    (by intro p hp; simp at hp) (by intro r hr; simp at hr)

/-- Witness for C3: with "o/r|ci.yml" cached, the workflow list containing
ci.yml and other.yml scans only other.yml, whose base name differs from the
cached one. -/
theorem c3_cached_workflow_skipped_witness :
    mkCacheKey "o" "r" "ci.yml" ∈ ["o/r|ci.yml"]
  ∧ filepathBase ".github/workflows/other.yml" ≠ "ci.yml" := by
  constructor
  · decide
  · exact (c3_cached_workflow_skipped ["o/r|ci.yml"] "o" "r" "ci.yml"
      [".github/workflows/ci.yml", ".github/workflows/other.yml"]
      (fun _ => []) (fun _ _ => ([], [], false)) (by decide)).1
      ".github/workflows/other.yml" (by decide)

/-- A whitespace byte is neither in the base64 alphabet nor '='. -/
theorem reSpace_facts (w : Nat) (hw : isReSpace w = true) : isB64 w = false ∧ w ≠ 61 := by
  rw [isReSpace] at hw
  simp only [Bool.or_eq_true, beq_iff_eq] at hw
  rcases hw with ((((rfl | rfl) | rfl) | rfl) | rfl) <;> exact ⟨rfl, by decide⟩

/-- Soundness of the candidate scan: every emitted candidate is an alphabet
run of length at least 40 followed by at most three '=' bytes. -/
theorem scan_sound :
    ∀ (s : List Nat) (st : ScanSt), stWF st →
      ∀ t ∈ scanLoop st s, ∃ rr pp, t = rr ++ pp ∧ rr.all isB64 = true ∧
        40 ≤ rr.length ∧ pp.all (fun c => c == 61) = true ∧ pp.length ≤ 3 := by
  intro s
  induction s with
  | nil =>
    intro st hst t ht
    match st with
    | .norm prevOk => simp [scanLoop] at ht
    | .run acc =>
      rw [scanLoop] at ht
      split at ht
      · rename_i hlen
        rw [List.mem_singleton] at ht
        subst ht
        exact ⟨acc.reverse, [], by simp, by simpa [stWF, List.all_reverse] using hst, by simpa using hlen, rfl, by simp⟩
      · simp at ht
    | .pad r p left =>
      rw [scanLoop] at ht
      rw [List.mem_singleton] at ht
      subst ht
      obtain ⟨h1, h2, h3, h4⟩ := hst
      exact ⟨r, p.reverse, rfl, h1, h2, by simpa using h3, by simp; omega⟩
  | cons c cs ih =>
    intro st hst t ht
    match st with
    | .norm prevOk =>
      rw [scanLoop] at ht
      split at ht
      · rename_i hcond
        exact ih (.run [c]) (by simp [stWF, hcond.2]) t ht
      · exact ih (.norm (isReSpace c)) trivial t ht
    | .run acc =>
      rw [scanLoop] at ht
      split at ht
      · rename_i hb
        exact ih (.run (c :: acc)) (by simp only [stWF, List.all_cons, hb, Bool.true_and]; simpa [stWF] using hst) t ht
      · split at ht
        · rename_i hlen
          split at ht
          · rename_i hc
            refine ih (.pad acc.reverse [61] 2) ?_ t ht
            refine ⟨by simpa [stWF, List.all_reverse] using hst, by simpa using hlen, by decide, by simp⟩
          · rcases List.mem_cons.mp ht with rfl | ht2
            · exact ⟨acc.reverse, [], by simp, by simpa [stWF, List.all_reverse] using hst,
                by simpa using hlen, rfl, by simp⟩
            · exact ih (.norm (isReSpace c)) trivial t ht2
        · exact ih (.norm (isReSpace c)) trivial t ht
    | .pad r p left =>
      rw [scanLoop] at ht
      obtain ⟨h1, h2, h3, h4⟩ := hst
      split at ht
      · rename_i hcond
        refine ih (.pad r (c :: p) (left - 1)) ?_ t ht
        refine ⟨h1, h2, by simp [hcond.1, h3], by simp; omega⟩
      · rcases List.mem_cons.mp ht with rfl | ht2
        · exact ⟨r, p.reverse, rfl, h1, h2, by simpa using h3, by simp; omega⟩
        · exact ih (.norm (isReSpace c)) trivial t ht2

/-- Scanning an alphabet run from a run state accumulates it entirely. -/
theorem scan_run_all :
    ∀ (t : List Nat), t.all isB64 = true →
      ∀ (acc post : List Nat),
        scanLoop (.run acc) (t ++ post) = scanLoop (.run (t.reverse ++ acc)) post := by
  intro t
  induction t with
  | nil => intro _ acc post; simp
  | cons c t' ih =>
    intro hall acc post
    simp only [List.all_cons, Bool.and_eq_true] at hall
    rw [List.cons_append, scanLoop, if_pos hall.1]
    rw [ih hall.2 (c :: acc) post]
    simp [List.append_assoc]

/-- From a padding state, the run plus collected and further padding bytes is
always emitted. -/
theorem scan_pad_emits (r : List Nat) :
    ∀ (ps p : List Nat) (left : Nat),
      ∃ q, q.all (fun c => c == 61) = true ∧
        (r ++ (p.reverse ++ q)) ∈ scanLoop (.pad r p left) ps := by
  intro ps
  induction ps with
  | nil =>
    intro p left
    exact ⟨[], rfl, by simp [scanLoop]⟩
  | cons c cs ih =>
    intro p left
    rw [scanLoop]
    by_cases hcond : c = 61 ∧ 0 < left
    · rw [if_pos hcond]
      obtain ⟨q, hq, hmem⟩ := ih (c :: p) (left - 1)
      refine ⟨c :: q, by simp [hcond.1, hq], ?_⟩
      have : p.reverse ++ c :: q = (c :: p).reverse ++ q := by simp
      rw [this]
      exact hmem
    · rw [if_neg hcond]
      exact ⟨[], rfl, by simp⟩

/-- From a match-capable position, a maximal alphabet run of length at least
40 is emitted as a candidate together with some '=' padding. -/
theorem scan_norm_emits (t post : List Nat) (ht : t.all isB64 = true)
    (hlen : 40 ≤ t.length)
    (hpost : ∀ c, post.head? = some c → isB64 c = false) :
    ∃ q, q.all (fun c => c == 61) = true ∧ (t ++ q) ∈ scanLoop (.norm true) (t ++ post) := by
  match t, ht, hlen with
  | c0 :: t', ht, hlen =>
    simp only [List.all_cons, Bool.and_eq_true] at ht
    rw [List.cons_append, scanLoop, if_pos ⟨rfl, ht.1⟩]
    rw [scan_run_all t' ht.2 [c0] post]
    have hrev : t'.reverse ++ [c0] = (c0 :: t').reverse := by simp
    rw [hrev]
    have hrlen : 40 ≤ (c0 :: t').reverse.length := by simpa using hlen
    match post, hpost with
    | [], _ =>
      refine ⟨[], rfl, ?_⟩
      rw [scanLoop, if_pos hrlen]
      simp
    | c :: cs, hpost =>
      have hcb : isB64 c = false := hpost c rfl
      rw [scanLoop, if_neg (by simp [hcb]), if_pos hrlen]
      by_cases hc : c = 61
      · rw [if_pos hc]
        obtain ⟨q, hq, hmem⟩ := scan_pad_emits ((c0 :: t').reverse.reverse) cs [61] 2
        refine ⟨61 :: q, by simp [hq], ?_⟩
        simpa using hmem
      · rw [if_neg hc]
        refine ⟨[], rfl, ?_⟩
        simp

/-- A candidate found after a whitespace byte is found from any scan state
with any prefix before that whitespace byte. -/
theorem scan_mem_extend :
    ∀ (pre tail : List Nat) (w : Nat), isReSpace w = true →
      ∀ (x : List Nat), x ∈ scanLoop (.norm true) tail →
        ∀ st, x ∈ scanLoop st (pre ++ w :: tail) := by
  intro pre
  induction pre with
  | nil =>
    intro tail w hw x hx st
    obtain ⟨hwb, hw61⟩ := reSpace_facts w hw
    rw [List.nil_append]
    match st with
    | .norm prevOk =>
      rw [scanLoop, if_neg (by simp [hwb])]
      rw [hw]
      exact hx
    | .run acc =>
      rw [scanLoop, if_neg (by simp [hwb])]
      by_cases hlen : 40 ≤ acc.length
      · rw [if_pos hlen, if_neg hw61, hw]
        exact List.mem_cons_of_mem _ hx
      · rw [if_neg hlen, hw]
        exact hx
    | .pad r p left =>
      rw [scanLoop, if_neg (by simp [hw61]), hw]
      exact List.mem_cons_of_mem _ hx
  | cons c pre' ih =>
    intro tail w hw x hx st
    rw [List.cons_append]
    match st with
    | .norm prevOk =>
      rw [scanLoop]
      by_cases hcond : prevOk = true ∧ isB64 c = true
      · rw [if_pos hcond]
        exact ih tail w hw x hx (.run [c])
      · rw [if_neg hcond]
        exact ih tail w hw x hx (.norm (isReSpace c))
    | .run acc =>
      rw [scanLoop]
      by_cases hb : isB64 c = true
      · rw [if_pos hb]
        exact ih tail w hw x hx (.run (c :: acc))
      · rw [if_neg hb]
        by_cases hlen : 40 ≤ acc.length
        · rw [if_pos hlen]
          by_cases hc : c = 61
          · rw [if_pos hc]
            exact ih tail w hw x hx (.pad acc.reverse [61] 2)
          · rw [if_neg hc]
            exact List.mem_cons_of_mem _ (ih tail w hw x hx (.norm (isReSpace c)))
        · rw [if_neg hlen]
          exact ih tail w hw x hx (.norm (isReSpace c))
    | .pad r p left =>
      rw [scanLoop]
      by_cases hcond : c = 61 ∧ 0 < left
      · rw [if_pos hcond]
        exact ih tail w hw x hx (.pad r (c :: p) (left - 1))
      · rw [if_neg hcond]
        exact List.mem_cons_of_mem _ (ih tail w hw x hx (.norm (isReSpace c)))

/-- Positional soundness of the candidate scan: relative to any consumed
prefix satisfying the positional invariant, every emitted candidate occurs in
the full line immediately after an anchored prefix (the empty prefix or one
ending in a whitespace byte). -/
theorem scan_sound_anchored :
    ∀ (s : List Nat) (st : ScanSt) (done : List Nat), stPosInv st done →
      ∀ t ∈ scanLoop st s, ∃ u v, done ++ s = u ++ t ++ v ∧ anchoredPrefix u := by
  intro s
  induction s with
  | nil =>
    intro st done hinv t ht
    match st with
    | .norm prevOk => simp [scanLoop] at ht
    | .run acc =>
      rw [scanLoop] at ht
      split at ht
      · rw [List.mem_singleton] at ht
        subst ht
        obtain ⟨u, hdone, hanch⟩ := hinv
        exact ⟨u, [], by simp [hdone], hanch⟩
      · simp at ht
    | .pad r p left =>
      rw [scanLoop] at ht
      rw [List.mem_singleton] at ht
      subst ht
      obtain ⟨u, hdone, hanch⟩ := hinv
      exact ⟨u, [], by simp [hdone], hanch⟩
  | cons c cs ih =>
    intro st done hinv t ht
    have hstep : ∀ (st' : ScanSt), stPosInv st' (done ++ [c]) →
        t ∈ scanLoop st' cs → ∃ u v, done ++ c :: cs = u ++ t ++ v ∧ anchoredPrefix u := by
      intro st' hinv' ht'
      obtain ⟨u, v, heq, hanch⟩ := ih st' (done ++ [c]) hinv' t ht'
      exact ⟨u, v, by simpa using heq, hanch⟩
    match st with
    | .norm prevOk =>
      rw [scanLoop] at ht
      split at ht
      · rename_i hcond
        refine hstep (.run [c]) ?_ ht
        exact ⟨done, by simp, hinv hcond.1⟩
      · refine hstep (.norm (isReSpace c)) ?_ ht
        intro hsp
        exact Or.inr ⟨done, c, rfl, hsp⟩
    | .run acc =>
      obtain ⟨u, hdone, hanch⟩ := hinv
      rw [scanLoop] at ht
      split at ht
      · refine hstep (.run (c :: acc)) ?_ ht
        exact ⟨u, by simp [hdone], hanch⟩
      · split at ht
        · split at ht
          · rename_i hc
            refine hstep (.pad acc.reverse [61] 2) ?_ ht
            subst hc
            exact ⟨u, by simp [hdone], hanch⟩
          · rcases List.mem_cons.mp ht with rfl | ht2
            · exact ⟨u, c :: cs, by simp [hdone], hanch⟩
            · refine hstep (.norm (isReSpace c)) ?_ ht2
              intro hsp
              exact Or.inr ⟨done, c, rfl, hsp⟩
        · refine hstep (.norm (isReSpace c)) ?_ ht
          intro hsp
          exact Or.inr ⟨done, c, rfl, hsp⟩
    | .pad r p left =>
      obtain ⟨u, hdone, hanch⟩ := hinv
      rw [scanLoop] at ht
      split at ht
      · rename_i hcond
        refine hstep (.pad r (c :: p) (left - 1)) ?_ ht
        refine ⟨u, ?_, hanch⟩
        rw [hdone, hcond.1]
        simp
      · rcases List.mem_cons.mp ht with rfl | ht2
        · exact ⟨u, c :: cs, by simp [hdone], hanch⟩
        · refine hstep (.norm (isReSpace c)) ?_ ht2
          intro hsp
          exact Or.inr ⟨done, c, rfl, hsp⟩

/-- Counterexample for C5: a 40-byte alphabet token embedded directly after a
double-quote byte (not at line start, not after whitespace) is not extracted
by the pattern pass. -/
theorem c5_counterexample :
    (34 :: List.replicate 40 65) = [34] ++ List.replicate 40 65 ++ []
  ∧ (List.replicate 40 65).all isB64 = true
  ∧ (List.replicate 40 65).length = 40
  ∧ findCandidates (34 :: List.replicate 40 65) = [] := by decide

/-- Claim C5 as amended: the pattern pass extracts exactly the maximal base64
alphabet runs of length at least 40 (with up to three '=' padding bytes) that
start at the beginning of the line or immediately after a whitespace byte:
every extracted candidate is such a run plus padding, every extracted
candidate occurs in the line right after an anchored prefix (so a token all
of whose occurrences follow a non-whitespace byte is never extracted), and
conversely every anchored maximal run of length at least 40 is extracted with
some padding. -/
theorem c5_amended_anchored_extraction (line pre post t : List Nat) (w : Nat) :
    (∀ cand ∈ findCandidates line, ∃ rr pp, cand = rr ++ pp ∧ rr.all isB64 = true ∧
        40 ≤ rr.length ∧ pp.all (fun c => c == 61) = true ∧ pp.length ≤ 3)
  ∧ (∀ cand ∈ findCandidates line, ∃ u v, line = u ++ cand ++ v ∧ anchoredPrefix u)
  ∧ (∀ t0 : List Nat, (∀ u v, line = u ++ t0 ++ v → ¬ anchoredPrefix u) →
      t0 ∉ findCandidates line)
  ∧ (t.all isB64 = true → 40 ≤ t.length →
      (∀ c, post.head? = some c → isB64 c = false) →
      ∃ q, q.all (fun c => c == 61) = true ∧ (t ++ q) ∈ findCandidates (t ++ post))
  ∧ (isReSpace w = true → t.all isB64 = true → 40 ≤ t.length →
      (∀ c, post.head? = some c → isB64 c = false) →
      ∃ q, q.all (fun c => c == 61) = true ∧
        (t ++ q) ∈ findCandidates (pre ++ w :: t ++ post)) := by
  have hpos : ∀ cand ∈ findCandidates line, ∃ u v, line = u ++ cand ++ v ∧ anchoredPrefix u := by
    intro cand hcand
    rw [findCandidates] at hcand
    have h2 := scan_sound_anchored line (.norm true) [] (fun _ => Or.inl rfl) cand hcand
    simpa using h2
  refine ⟨?_, hpos, ?_, ?_, ?_⟩
  · intro cand hcand
    exact scan_sound line (.norm true) trivial cand hcand
  · intro t0 hno hmem
    obtain ⟨u, v, heq, hanch⟩ := hpos t0 hmem
    exact hno u v heq hanch
  · intro ht hlen hpost
    exact scan_norm_emits t post ht hlen hpost
  · intro hw ht hlen hpost
    obtain ⟨q, hq, hmem⟩ := scan_norm_emits t post ht hlen hpost
    refine ⟨q, hq, ?_⟩
    rw [findCandidates]
    have hm := scan_mem_extend pre (t ++ post) w hw (t ++ q) hmem (.norm true)
    simpa [List.cons_append] using hm

/-- Witness for C5: the 40-byte token preceded by "x " and followed by "=\""
is extracted with its padding. -/
theorem c5_amended_witness :
    ∃ q, q.all (fun c => c == 61) = true ∧
      (List.replicate 40 65 ++ q) ∈
        findCandidates ([120] ++ 32 :: List.replicate 40 65 ++ [61, 34]) := by
  exact (c5_amended_anchored_extraction [] [120] [61, 34] (List.replicate 40 65) 32).2.2.2.2
    (by decide) (by decide) (by decide) (by intro c hc; simp at hc; subst hc; decide)

/-- Counterexample for C10: on a log line with two distinct decodable tokens,
two legitimate map iteration orders (identity and reversal) produce different
comma-joined Finding fields, so ParseLogs is not invocation-deterministic. -/
theorem c10_counterexample :
    ¬ (∀ (o1 o2 : List GoStr → List GoStr),
        (∀ l, (o1 l).Perm l) → (∀ l, (o2 l).Perm l) →
        parseLogsIOC o1 [] (List.replicate 40 65 ++ 32 :: List.replicate 40 66)
          = parseLogsIOC o2 [] (List.replicate 40 65 ++ 32 :: List.replicate 40 66)) := by
  intro hall
  have h := hall id List.reverse (fun l => List.Perm.refl l) (fun l => List.reverse_perm l)
  revert h
  decide

/-- Claim C10 as amended: ParseLogs is deterministic up to the iteration order
of the deduplication sets: any two invocations join the same fixed key sets,
so their comma-joined segment lists are permutations of each other, and the
found flag is identical. -/
theorem c10_amended_deterministic_up_to_order (contents : List GoStr) (logData : GoStr)
    (o1 o2 : List GoStr → List GoStr)
    (h1 : ∀ l, (o1 l).Perm l) (h2 : ∀ l, (o2 l).Perm l) :
    ((o1 (parseLogsIOCCore contents logData).2.1).Perm
       (o2 (parseLogsIOCCore contents logData).2.1))
  ∧ ((o1 (parseLogsIOCCore contents logData).2.2).Perm
       (o2 (parseLogsIOCCore contents logData).2.2))
  ∧ ((o1 (parseLogsIOCCore contents logData).1).Perm
       (o2 (parseLogsIOCCore contents logData).1))
  ∧ (parseLogsIOC o1 contents logData).1 =
      [⟨joinComma (o1 (parseLogsIOCCore contents logData).2.1),
        joinComma (o1 (parseLogsIOCCore contents logData).2.2),
        joinComma (o1 (parseLogsIOCCore contents logData).1)⟩]
  ∧ (parseLogsIOC o1 contents logData).2 = (parseLogsIOC o2 contents logData).2 := by
  refine ⟨(h1 _).trans (h2 _).symm, (h1 _).trans (h2 _).symm, (h1 _).trans (h2 _).symm, rfl, rfl⟩

/-- Witness for C10 at the identity order on the empty log. -/
theorem c10_amended_witness :
    ((id (parseLogsIOCCore [] []).2.1).Perm (id (parseLogsIOCCore [] []).2.1))
  ∧ (parseLogsIOC id [] []).2 = (parseLogsIOC id [] []).2 := by
  have h := c10_amended_deterministic_up_to_order [] [] id id
    (fun l => List.Perm.refl l) (fun l => List.Perm.refl l)
  exact ⟨h.1, h.2.2.2.2⟩
